import Mathlib

/-!
Verification of the `ros` kernel (Rust) against its natural-language
specification.  Each definition below is a shallow embedding of a function of
the Rust source, translated statement by statement; machine integers are
modelled as `Nat` with explicit masking where overflow matters, volatile MMIO
stores that do not feed back into the modelled state (doorbells, log output)
are dropped, and raw-pointer data structures are modelled by the values they
denote (a ring buffer by the list of its TRB slots, the heap's doubly linked
block list - which is kept in address order and whose links are pure
next/prev surgery - by the list of its blocks).
-/

set_option autoImplicit false

/-! ## xHCI rings (`src/xhci.rs`)

`Trb` is the 16-byte Transfer Request Block: `param: u64, status: u32,
control: u32`.  `CommandRing` carries `base, size (usable slots),
enqueue_index, cycle_bit`; the backing buffer `[Trb; N]` is modelled by the
list `trbs` of its `N` slots, the last one holding the Link TRB. -/

structure Trb where
  param : Nat
  status : Nat
  control : Nat
deriving Repr, DecidableEq

/-- `Trb::default()`: all fields zero. -/
def Trb.default : Trb := { param := 0, status := 0, control := 0 }

/-- `Trb::cycle_bit(&self)`: `(self.control & 1) != 0`. -/
def Trb.cycleBit (t : Trb) : Bool := t.control &&& 1 ≠ 0

/-- `TRB_LINK: u8 = 6`. -/
def TRB_LINK : Nat := 6

/-- A command ring: `base` is dropped (it only feeds the Link TRB's `param`,
kept here as the field `base`), `trbs` is the contents of the backing buffer. -/
structure CommandRing where
  base : Nat
  trbs : List Trb
  size : Nat
  enqueueIndex : Nat
  cycleBit : Bool
deriving Repr, DecidableEq

/-- `CommandRing::new(buffer, size_bytes)`: zero the buffer, plant a Link TRB
with `param = buffer` and `control = (TRB_LINK << 10) | (1 << 1)` (Toggle
Cycle set, cycle bit clear) in the last slot, usable `size = slots - 1`,
`enqueue_index = 0`, `cycle_bit = true`. -/
def CommandRing.new (base sizeBytes : Nat) : CommandRing :=
  let size := sizeBytes / 16
  let linkTrb : Trb :=
    { param := base, status := 0, control := TRB_LINK <<< 10 ||| (1 <<< 1) }
  { base := base
    trbs := (List.replicate size Trb.default).set (size - 1) linkTrb
    size := size - 1
    enqueueIndex := 0
    cycleBit := true }

/-- `CommandRing::enqueue(&mut self, trb, db)`: stamp the producer cycle bit
into `trb.control`, write the slot, advance; on reaching the Link slot rewrite
the Link TRB's cycle bit to the current cycle, wrap the index to 0 and flip
the cycle.  The doorbell write is external I/O and is dropped. -/
def CommandRing.enqueue (r : CommandRing) (trb : Trb) : CommandRing :=
  let control := trb.control &&& 0xFFFFFFFE
  let trb := { trb with control := control ||| (if r.cycleBit then 1 else 0) }
  let trbs := r.trbs.set r.enqueueIndex trb
  let enqueueIndex := r.enqueueIndex + 1
  if enqueueIndex ≥ r.size then
    let linkTrb := (trbs.get? r.size).getD Trb.default
    let linkTrb :=
      { linkTrb with
        control := linkTrb.control &&& 0xFFFFFFFE |||
          (if r.cycleBit then 1 else 0) }
    { r with
      trbs := trbs.set r.size linkTrb
      enqueueIndex := 0
      cycleBit := !r.cycleBit }
  else
    { r with trbs := trbs, enqueueIndex := enqueueIndex }

/-- `k` successive productions (each `enqueue` call takes the TRB to write). -/
def CommandRing.enqueueAll (r : CommandRing) (l : List Trb) : CommandRing :=
  l.foldl CommandRing.enqueue r

/-- Cycle bit stored in the ring's Link TRB (slot `size`). -/
def CommandRing.linkCycleBit (r : CommandRing) : Bool :=
  ((r.trbs.get? r.size).getD Trb.default).cycleBit

/-! ## HID keyboard press-edge detection (`src/xhci.rs`)

`HID_ASCII_TABLE: [u8; 128]` built entry by entry; every index not listed
stays 0. -/

/-- `HID_ASCII_TABLE` as a function; indices `≥ 128` are outside the array
(the caller checks `key < 128` before the lookup). -/
def hidAsciiTable (k : Nat) : Nat :=
  match k with
  | 0x04 => 0x61 | 0x05 => 0x62 | 0x06 => 0x63 | 0x07 => 0x64
  | 0x08 => 0x65 | 0x09 => 0x66 | 0x0a => 0x67 | 0x0b => 0x68
  | 0x0c => 0x69 | 0x0d => 0x6a | 0x0e => 0x6b | 0x0f => 0x6c
  | 0x10 => 0x6d | 0x11 => 0x6e | 0x12 => 0x6f | 0x13 => 0x70
  | 0x14 => 0x71 | 0x15 => 0x72 | 0x16 => 0x73 | 0x17 => 0x74
  | 0x18 => 0x75 | 0x19 => 0x76 | 0x1a => 0x77 | 0x1b => 0x78
  | 0x1c => 0x79 | 0x1d => 0x7a
  | 0x1e => 0x31 | 0x1f => 0x32 | 0x20 => 0x33 | 0x21 => 0x34
  | 0x22 => 0x35 | 0x23 => 0x36 | 0x24 => 0x37 | 0x25 => 0x38
  | 0x26 => 0x39 | 0x27 => 0x30
  | 0x28 => 0x0a | 0x2a => 0x08 | 0x2b => 0x09 | 0x2c => 0x20
  | 0x2d => 0x2d | 0x2e => 0x3d | 0x2f => 0x5b | 0x30 => 0x5d
  | 0x31 => 0x5c | 0x33 => 0x3b | 0x34 => 0x27 | 0x36 => 0x2c
  | 0x37 => 0x2e | 0x38 => 0x2f
  | 0x4F => 0x80 | 0x50 => 0x81 | 0x51 => 0x82 | 0x52 => 0x83
  | _ => 0

/-- The inner `for j in 2..8 { if prev_report[j] == key { found = true } }`
loop: membership of `key` among the previous report's keycode bytes. -/
def keyInPrev (prevKeys : List Nat) (key : Nat) : Bool :=
  match prevKeys with
  | [] => false
  | p :: rest => if p = key then true else keyInPrev rest key

/-- The `for i in 2..8` loop of `process_events` over the current report's
keycode bytes: emit `HID_ASCII_TABLE[key]` (in loop order) for every nonzero
`key` absent from the previous report whose table entry is nonzero. -/
def processNewKeys (prevKeys : List Nat) : List Nat → List Nat
  | [] => []
  | key :: rest =>
    if key ≠ 0 then
      if keyInPrev prevKeys key then processNewKeys prevKeys rest
      else if key < 128 then
        let ascii := hidAsciiTable key
        if ascii ≠ 0 then ascii :: processNewKeys prevKeys rest
        else processNewKeys prevKeys rest
      else processNewKeys prevKeys rest
    else processNewKeys prevKeys rest

/-- Code points pushed by one Success keyboard transfer event, given the
previous and current 8-byte boot-protocol reports (bytes 2..8 are keycodes). -/
def pressEdge (prev report : List Nat) : List Nat :=
  processNewKeys (prev.drop 2) (report.drop 2)

/-- The spec's `translate`: the HID-usage to ASCII table lookup, 0 outside the
table. -/
def translateKey (k : Nat) : Nat := if k < 128 then hidAsciiTable k else 0

/-- The Transfer Event arm of `process_events`, restricted to its effect on
the key buffer and the slot's previous-report buffer.  `isKeyboardReport` is
the computed `param`-inside-interrupt-in-ring test; `code` the completion
code.  Returns (bytes pushed via `push_key`, new previous report).  Only
`code == 1` (Success) processes the report; `code == 6` (Stall) only logs. -/
def processTransferEventKbd (isKeyboardReport : Bool) (code : Nat)
    (prev report : List Nat) : List Nat × List Nat :=
  if isKeyboardReport then
    if code = 1 then (pressEdge prev report, report)
    else if code = 6 then ([], prev)
    else ([], prev)
  else ([], prev)

/-! ## Syscall dispatcher (`src/syscall.rs`)

`syscall_dispatcher_impl(id, arg1..arg6) -> usize`.  The subsystem calls the
dispatcher makes (`sys_alloc`, `sys_nvme_read`, ...) are modelled by an
environment recording the value each would return; the dispatcher itself is
the `match id` below, translated arm by arm. -/

/-- Results of the subsystem operations invoked by the dispatcher. -/
structure SyscallEnv where
  allocResult : Nat → Nat
  nvmeReadResult : Nat → Nat → Nat → Nat → Nat
  nvmeWriteResult : Nat → Nat → Nat → Nat → Nat
  readKeyResult : Nat

/-- `usize::MAX` on x86-64. -/
def USIZE_MAX : Nat := 2 ^ 64 - 1

/-- `syscall_dispatcher_impl`: the `match id` of `src/syscall.rs:143-202`.
Arms 1..11 exist; `_ => usize::MAX` handles everything else - there is no arm
for ids 12 or 13. -/
def syscallDispatcherImpl (env : SyscallEnv)
    (id arg1 arg2 arg3 arg4 _arg5 _arg6 : Nat) : Nat :=
  match id with
  | 1 => 0
  | 2 => env.allocResult arg1
  | 3 => 0
  | 4 => 0
  | 5 => 0
  | 6 => 0
  | 7 => env.nvmeReadResult arg1 arg2 arg3 arg4
  | 8 => env.nvmeWriteResult arg1 arg2 arg3 arg4
  | 9 => 0
  | 10 => 0
  | 11 => env.readKeyResult
  | _ => USIZE_MAX

/-! ## NVMe driver (`src/nvme.rs`)

Queues are modelled by their index/phase state plus the contents of the
submission ring and the completion ring visible to the driver; doorbell MMIO
writes are external and dropped. -/

structure NvmeSQEntry where
  opcode : Nat
  flags : Nat
  commandId : Nat
  nsid : Nat
  prp1 : Nat
  prp2 : Nat
  cdw10 : Nat
  cdw11 : Nat
  cdw12 : Nat
deriving Repr, DecidableEq

def NvmeSQEntry.default : NvmeSQEntry :=
  { opcode := 0, flags := 0, commandId := 0, nsid := 0, prp1 := 0, prp2 := 0,
    cdw10 := 0, cdw11 := 0, cdw12 := 0 }

structure NvmeCQEntry where
  cdw0 : Nat
  sqHead : Nat
  sqId : Nat
  commandId : Nat
  status : Nat
deriving Repr, DecidableEq

structure NvmeQueue where
  id : Nat
  tail : Nat
  head : Nat
  size : Nat
  phase : Nat
  sq : List NvmeSQEntry
  cq : List NvmeCQEntry
deriving Repr, DecidableEq

/-- `nvme_submit_command`: copy the command into the tail SQ slot, advance the
tail with wrap at `size`, ring the tail doorbell (dropped). -/
def nvmeSubmitCommand (q : NvmeQueue) (cmd : NvmeSQEntry) : NvmeQueue :=
  let sq := q.sq.set q.tail cmd
  let tail := q.tail + 1
  let tail := if tail ≥ q.size then 0 else tail
  { q with sq := sq, tail := tail }

/-- One-step body of the `nvme_wait_for_completion` loop, fuelled: read the
head CQ entry; if its phase tag matches, consume it (advancing head and
toggling phase on wrap) and stop once `command_id = cid`; otherwise spin.
`none` models not completing within `fuel` iterations (the code spins
forever). -/
def nvmeWaitForCompletion (cid : Nat) : Nat → NvmeQueue → Option NvmeQueue
  | 0, _ => none
  | fuel + 1, q =>
    match q.cq.get? q.head with
    | none => none
    | some entry =>
      if entry.status &&& 1 = q.phase then
        let head := q.head + 1
        let q' :=
          if head ≥ q.size then
            { q with head := 0, phase := if q.phase = 1 then 0 else 1 }
          else { q with head := head }
        if entry.commandId = cid then some q'
        else nvmeWaitForCompletion cid fuel q'
      else nvmeWaitForCompletion cid fuel q

/-- `u32` subtraction `count - 1` (wrapping, as in release builds). -/
def u32Sub1 (count : Nat) : Nat := (count + (2 ^ 32 - 1)) % 2 ^ 32

/-- `nvme_read(nsid, lba, buffer, count) -> i32`: build the Read command,
submit it on the IO queue, wait for completion `cid = 100`, return 0.  The
result is `none` when the wait spins past `fuel`, otherwise `some (0, q')`. -/
def nvmeRead (nsid lba buffer count : Nat) (q : NvmeQueue) (fuel : Nat) :
    Option (Int × NvmeQueue) :=
  let cmd : NvmeSQEntry :=
    { opcode := 0x02, flags := 0, commandId := 100, nsid := nsid,
      prp1 := buffer, prp2 := 0,
      cdw10 := lba % 2 ^ 32, cdw11 := lba / 2 ^ 32,
      cdw12 := u32Sub1 count &&& 0xFFFF }
  let q := nvmeSubmitCommand q cmd
  match nvmeWaitForCompletion 100 fuel q with
  | none => none
  | some q' => some (0, q')

/-- `nvme_write(nsid, lba, buffer, count) -> i32`: same as `nvme_read` with
opcode 0x01 and `cid = 101`; returns 0. -/
def nvmeWrite (nsid lba buffer count : Nat) (q : NvmeQueue) (fuel : Nat) :
    Option (Int × NvmeQueue) :=
  let cmd : NvmeSQEntry :=
    { opcode := 0x01, flags := 0, commandId := 101, nsid := nsid,
      prp1 := buffer, prp2 := 0,
      cdw10 := lba % 2 ^ 32, cdw11 := lba / 2 ^ 32,
      cdw12 := u32Sub1 count &&& 0xFFFF }
  let q := nvmeSubmitCommand q cmd
  match nvmeWaitForCompletion 101 fuel q with
  | none => none
  | some q' => some (0, q')

/-! ## Physical frame allocator (`src/memory.rs`)

`FrameAllocator` walks the UEFI memory map with a cursor
`(current_descriptor_index, current_page_offset)`.  The cursor only ever
advances, so it is modelled by the list of descriptors not yet passed
together with the page offset into its head. -/

/-- One `EFI_MEMORY_DESCRIPTOR` (the fields `allocate_frame` reads). -/
structure MemDesc where
  typ : Nat
  physicalStart : Nat
  numberOfPages : Nat
deriving Repr, DecidableEq

/-- `EFI_CONVENTIONAL_MEMORY = 7`. -/
def EFI_CONVENTIONAL_MEMORY : Nat := 7

/-- Frame-allocator cursor: descriptors from `current_descriptor_index` on,
plus `current_page_offset`. -/
structure FrameAllocSt where
  descs : List MemDesc
  pageOffset : Nat
deriving Repr, DecidableEq

/-- `FrameAllocator::allocate_frame`: the `while` loop over the remaining
descriptors.  On a conventional descriptor with pages left it computes
`physical_start + page_offset * 4096`, advances the offset, and returns the
frame only when the address is nonzero; in every other case (including the
zero-address one) it moves to the next descriptor with offset 0. -/
def allocateFrameGo : List MemDesc → Nat → Option Nat × FrameAllocSt
  | [], off => (none, { descs := [], pageOffset := off })
  | d :: rest, off =>
    if d.typ = EFI_CONVENTIONAL_MEMORY ∧ off < d.numberOfPages then
      let frameAddress := d.physicalStart + off * 4096
      if frameAddress > 0 then
        (some frameAddress, { descs := d :: rest, pageOffset := off + 1 })
      else allocateFrameGo rest 0
    else allocateFrameGo rest 0

def allocateFrame (s : FrameAllocSt) : Option Nat × FrameAllocSt :=
  allocateFrameGo s.descs s.pageOffset

/-- Results of `n` successive `allocate_frame` calls. -/
def allocateFrames : Nat → FrameAllocSt → List (Option Nat) × FrameAllocSt
  | 0, s => ([], s)
  | n + 1, s =>
    let (r, s') := allocateFrame s
    let (rs, s'') := allocateFrames n s'
    (r :: rs, s'')

/-- Total page count of the conventional descriptors of a memory map. -/
def conventionalPages (m : List MemDesc) : Nat :=
  m.foldr
    (fun d acc =>
      if d.typ = EFI_CONVENTIONAL_MEMORY then d.numberOfPages + acc else acc)
    0

/-! ## Scheduler (`src/scheduler.rs`)

`Task { id, stack_top, stack_bottom, status, kernel_stack_bottom, gs_base }`;
status machine Ready / Running / Terminated.  Stack synthesis writes through
raw pointers and is summarised by the resulting field values (the written
stack words do not feed back into the status machine). -/

inductive TaskStatus where
  | Ready
  | Running
  | Terminated
deriving Repr, DecidableEq

structure KTask where
  id : Nat
  stackTop : Nat
  stackBottom : Nat
  status : TaskStatus
  kernelStackBottom : Nat
  gsBase : Nat
deriving Repr, DecidableEq

structure Scheduler where
  tasks : List KTask
  currentTaskIndex : Nat
  nextTaskId : Nat
deriving Repr, DecidableEq

/-- `scheduler::init()`: a fresh scheduler holding task 0, Running, with
`gs_base` the global `KernelGsBase` record (an opaque address). -/
def Scheduler.init (globalGsBase : Nat) : Scheduler :=
  { tasks := [{ id := 0, stackTop := 0, stackBottom := 0,
                status := TaskStatus.Running, kernelStackBottom := 0,
                gsBase := globalGsBase }]
    currentTaskIndex := 0
    nextTaskId := 1 }

/-- `add_new_user_task(entry_point, user_stack_bottom, stack_size)`: allocate
a kernel stack and a `KernelGsBase` record (their addresses are parameters of
the model), synthesize the IRETQ stack (13 pushed words, so the saved RSP is
`kernel_stack_top - 13*8`), push a Ready task. -/
def Scheduler.addNewUserTask (s : Scheduler)
    (_entryPoint userStackBottom stackSize kernelStackBottom gsBasePtr : Nat) :
    Scheduler :=
  let id := s.nextTaskId
  let kernelStackTop := kernelStackBottom + stackSize
  let task : KTask :=
    { id := id
      stackTop := kernelStackTop - 13 * 8
      stackBottom := userStackBottom
      status := TaskStatus.Ready
      kernelStackBottom := kernelStackBottom
      gsBase := gsBasePtr }
  { s with tasks := s.tasks ++ [task], nextTaskId := id + 1 }

/-- The round-robin search of `switch_task`: starting at
`(current + 1) % len`, try `len` slots, return the first whose status is
Ready. -/
def findReadyGo (tasks : List KTask) : Nat → Nat → Option Nat
  | 0, _ => none
  | fuel + 1, idx =>
    if (tasks.get? idx).map KTask.status = some TaskStatus.Ready then some idx
    else findReadyGo tasks fuel ((idx + 1) % tasks.length)

/-- `switch_task()`: round-robin selection.  If no Ready task exists the
current task keeps the CPU (a Terminated current task halts forever, leaving
the task list as it is); if the chosen task is the current one nothing
changes; otherwise the current task is demoted Running→Ready, the chosen one
is marked Running and becomes current.  `context_switch` and the `GS_BASE`
MSR write do not touch the task list. -/
def Scheduler.switchTask (s : Scheduler) : Scheduler :=
  if s.tasks.isEmpty then s
  else
    match findReadyGo s.tasks s.tasks.length
        ((s.currentTaskIndex + 1) % s.tasks.length) with
    | none => s
    | some nextIndex =>
      if nextIndex = s.currentTaskIndex then s
      else
        let tasks :=
          match s.tasks.get? s.currentTaskIndex with
          | some t =>
            if t.status = TaskStatus.Running then
              s.tasks.set s.currentTaskIndex
                { t with status := TaskStatus.Ready }
            else s.tasks
          | none => s.tasks
        let tasks :=
          match tasks.get? nextIndex with
          | some t =>
            tasks.set nextIndex { t with status := TaskStatus.Running }
          | none => tasks
        { s with tasks := tasks, currentTaskIndex := nextIndex }

/-- `terminate_task()`: mark the current task Terminated, then force a
switch. -/
def Scheduler.terminateTask (s : Scheduler) : Scheduler :=
  let s' :=
    match s.tasks.get? s.currentTaskIndex with
    | some t =>
      { s with
        tasks := s.tasks.set s.currentTaskIndex
          { t with status := TaskStatus.Terminated } }
    | none => s
  s'.switchTask

/-- A scheduler operation after `init` (the arguments of `addUser` carry the
address parameters of `add_new_user_task`'s two allocations). -/
inductive SchedOp where
  | addUser (entryPoint userStackBottom stackSize kernelStackBottom
      gsBasePtr : Nat)
  | switch
  | terminate
deriving Repr, DecidableEq

def SchedOp.apply (s : Scheduler) : SchedOp → Scheduler
  | SchedOp.addUser e u sz k g => s.addNewUserTask e u sz k g
  | SchedOp.switch => s.switchTask
  | SchedOp.terminate => s.terminateTask

def Scheduler.run (s : Scheduler) (ops : List SchedOp) : Scheduler :=
  ops.foldl SchedOp.apply s

/-! ## Kernel heap (`src/allocator.rs`)

`HeapBlock { size, next, prev, free }`; `size_of::<HeapBlock>() = 32` on
x86-64.  The blocks form a doubly linked list in address order that tiles the
heap region (`addr(next) = addr(b) + 32 + b.size`, an invariant established
by `init` and preserved verbatim by the split and coalesce surgery), so the
list of `(size, free)` pairs determines every block address; `free_raw`'s
pointer argument is the identified block.  The offset-header words written by
`KernelAllocator::alloc` (`ptr::write::<usize>`) are modelled by the
word-per-address map `headers`, payload bytes by the map `mem`; a well-formed
allocation keeps those address ranges disjoint. -/

structure HeapBlock where
  size : Nat
  free : Bool
deriving Repr, DecidableEq

/-- `HEAP_BLOCK_SIZE = mem::size_of::<HeapBlock>()`. -/
def HEAP_BLOCK_SIZE : Nat := 32

/-- `size = (size + align_mask) & !align_mask` with
`align_mask = align_of::<usize>() - 1 = 7`. -/
def align8 (size : Nat) : Nat := (size + 7) &&& 0xFFFFFFFFFFFFFFF8

/-- The first-fit walk of `alloc_raw` (size already 8-aligned): find the
first free block of sufficient size, split it when the remainder can hold a
header plus 16 bytes, mark it used; returns the new list and the index of the
allocated block, or `none` (null) when no block fits. -/
def allocRawGo (size : Nat) : List HeapBlock → Option (List HeapBlock × Nat)
  | [] => none
  | b :: rest =>
    if b.free ∧ size ≤ b.size then
      if size + HEAP_BLOCK_SIZE + 16 ≤ b.size then
        some (⟨size, false⟩ ::
          (⟨b.size - size - HEAP_BLOCK_SIZE, true⟩ : HeapBlock) :: rest, 0)
      else some (⟨b.size, false⟩ :: rest, 0)
    else
      match allocRawGo size rest with
      | some (rest', i) => some (b :: rest', i + 1)
      | none => none

/-- `LinkedListAllocator::alloc_raw(size)`. -/
def allocRaw (size : Nat) (blocks : List HeapBlock) :
    Option (List HeapBlock × Nat) :=
  allocRawGo (align8 size) blocks

/-- `LinkedListAllocator::free_raw`, by block index.  The returned flag says
the target block was newly freed and sits at the head of the returned list's
suffix at that index (it drives the coalesce-with-prev step one level up).
Marking free and coalescing with the next block happen at index 0; the
`n = 0` guard one level up is the `prev` pointer check. -/
def freeRawGo : List HeapBlock → Nat → List HeapBlock × Bool
  | [], _ => ([], false)
  | b :: rest, 0 =>
    if b.free then (b :: rest, false)
    else
      match rest with
      | b2 :: rest2 =>
        if b2.free then
          ((⟨b.size + b2.size + HEAP_BLOCK_SIZE, true⟩ : HeapBlock) :: rest2,
            true)
        else ((⟨b.size, true⟩ : HeapBlock) :: b2 :: rest2, true)
      | [] => ([(⟨b.size, true⟩ : HeapBlock)], true)
  | b :: rest, n + 1 =>
    let (rest', changed) := freeRawGo rest n
    if n = 0 ∧ changed ∧ b.free then
      match rest' with
      | c :: rest2 =>
        ((⟨b.size + c.size + HEAP_BLOCK_SIZE, true⟩ : HeapBlock) :: rest2,
          false)
      | [] => (b :: rest', false)
    else (b :: rest', false)

/-- `LinkedListAllocator::free_raw(ptr)` with `ptr` identified as block `i`. -/
def freeRaw (blocks : List HeapBlock) (i : Nat) : List HeapBlock :=
  (freeRawGo blocks i).1

/-- `LinkedListAllocator::init(start, size)`: one free block of
`size - HEAP_BLOCK_SIZE` bytes. -/
def heapInit (size : Nat) : List HeapBlock :=
  [⟨size - HEAP_BLOCK_SIZE, true⟩]

/-- A raw-heap operation (`alloc_raw` size, or `free_raw` of block `i`). -/
inductive HeapOp where
  | alloc (size : Nat)
  | free (i : Nat)
deriving Repr, DecidableEq

def HeapOp.apply (blocks : List HeapBlock) : HeapOp → List HeapBlock
  | HeapOp.alloc size =>
    match allocRaw size blocks with
    | some (blocks', _) => blocks'
    | none => blocks
  | HeapOp.free i => freeRaw blocks i

def heapRun (blocks : List HeapBlock) (ops : List HeapOp) : List HeapBlock :=
  ops.foldl HeapOp.apply blocks

/-- Address of block `i`: the list tiles the region from `start`. -/
def blockAddr (start : Nat) : List HeapBlock → Nat → Nat
  | _, 0 => start
  | [], n + 1 => start + (n + 1)   -- out of range; keeps addresses distinct
  | b :: rest, n + 1 => blockAddr (start + HEAP_BLOCK_SIZE + b.size) rest n

/-- Identify the block whose header sits at address `a` (the inverse of the
`block_addr as *mut HeapBlock` pointer cast). -/
def findBlockIdx (start : Nat) (l : List HeapBlock) (a : Nat) : Option Nat :=
  match l with
  | [] => none
  | b :: rest =>
    if start = a then some 0
    else (findBlockIdx (start + HEAP_BLOCK_SIZE + b.size) rest a).map (· + 1)

/-! ## `KernelAllocator` offset-header wrapper (`src/allocator.rs`)

Kernel-mode (`CPL = 0`) paths of `alloc`, `dealloc` and `realloc`.  State:
the raw block list, the offset-header words (`headers`, the `usize` written
at `aligned - 8` by `ptr::write`), and payload byte memory (`mem`). -/

structure AllocSt where
  start : Nat
  blocks : List HeapBlock
  headers : Nat → Nat
  mem : Nat → Nat

/-- `offset_header_size = mem::size_of::<usize>()`. -/
def OFFSET_HEADER_SIZE : Nat := 8

/-- `KernelAllocator::alloc(layout)`, kernel path: reserve
`size + align + 8` raw bytes, place the payload at the smallest
`aligned ≥ raw + 8` with `aligned % align = 0`, record the block header
address in the offset-header word at `aligned - 8`.  Returns the new state
and the pointer (`0` = null when `alloc_raw` fails). -/
def kalloc (st : AllocSt) (size align : Nat) : AllocSt × Nat :=
  match allocRaw (size + align + OFFSET_HEADER_SIZE) st.blocks with
  | none => (st, 0)
  | some (blocks', i) =>
    let addr := blockAddr st.start blocks' i + HEAP_BLOCK_SIZE
    let blockAddress := addr - HEAP_BLOCK_SIZE
    let startCandidate := addr + OFFSET_HEADER_SIZE
    let remainder := startCandidate % align
    let padding := if remainder = 0 then 0 else align - remainder
    let alignedAddr := startCandidate + padding
    ({ st with
        blocks := blocks'
        headers := fun a =>
          if a = alignedAddr - OFFSET_HEADER_SIZE then blockAddress
          else st.headers a },
      alignedAddr)

/-- `KernelAllocator::dealloc(ptr)`, kernel path: read the offset-header word
at `ptr - 8` to recover the block header address, call `free_raw` on that
block. -/
def kdealloc (st : AllocSt) (ptr : Nat) : AllocSt :=
  if ptr = 0 then st
  else
    let blockAddress := st.headers (ptr - OFFSET_HEADER_SIZE)
    match findBlockIdx st.start st.blocks blockAddress with
    | some i => { st with blocks := freeRaw st.blocks i }
    | none => st

/-- `b.size` of the block whose header sits at `block_addr` (the
`(*block).size` read of `realloc`). -/
def blockSizeAt (st : AllocSt) (blockAddress : Nat) : Nat :=
  match findBlockIdx st.start st.blocks blockAddress with
  | some i => ((st.blocks.get? i).getD ⟨0, false⟩).size
  | none => 0

/-- `ptr::copy_nonoverlapping(src, dst, n)` on byte memory. -/
def copyBytes (m : Nat → Nat) (src dst n : Nat) : Nat → Nat :=
  fun a => if dst ≤ a ∧ a < dst + n then m (src + (a - dst)) else m a

/-- `KernelAllocator::realloc(ptr, layout, new_size)`, kernel path: null
`ptr` is a plain `alloc`; otherwise allocate fresh, and only when that
succeeded recover the old block through the offset header, compute
`old_capacity = block_addr + 32 + size - ptr`, copy
`min(new_size, old_capacity)` bytes and free the old block; a failed fresh
allocation returns null with nothing else done. -/
def krealloc (st : AllocSt) (ptr align newSize : Nat) : AllocSt × Nat :=
  if ptr = 0 then kalloc st newSize align
  else
    let (st1, newPtr) := kalloc st newSize align
    if newPtr ≠ 0 then
      let blockAddress := st1.headers (ptr - OFFSET_HEADER_SIZE)
      let rawPayloadSize := blockSizeAt st1 blockAddress
      let rawPayloadEnd := blockAddress + HEAP_BLOCK_SIZE + rawPayloadSize
      let oldCapacity := rawPayloadEnd - ptr
      let copySize := if newSize < oldCapacity then newSize else oldCapacity
      let st2 := { st1 with mem := copyBytes st1.mem ptr newPtr copySize }
      (kdealloc st2 ptr, newPtr)
    else (st1, 0)

/-- Producer-ring well-formedness: the enqueue index stays among the usable
slots, the buffer has `size + 1` slots, and the Link TRB's cycle bit is the
complement of the producer cycle. -/
def RingInv (r : CommandRing) : Prop :=
  r.enqueueIndex < r.size ∧ r.trbs.length = r.size + 1 ∧
  r.linkCycleBit = !r.cycleBit

/-- The emission test of the `for i in 2..8` loop as an `Option`-valued
filter (used to restate `processNewKeys` as a `filterMap`). -/
def pressKeyFilter (prevKeys : List Nat) (key : Nat) : Option Nat :=
  if key ≠ 0 ∧ keyInPrev prevKeys key = false ∧ key < 128 ∧
      hidAsciiTable key ≠ 0 then
    some (hidAsciiTable key)
  else none

/-- Two neighbouring blocks are not both free. -/
def AdjFree (a b : HeapBlock) : Prop := a.free = false ∨ b.free = false

/-- C6's invariant: no two (address-)adjacent blocks of the list are both
free.  List adjacency is address adjacency because the block list tiles the
heap region in address order. -/
def NoTwoAdjacentFree (l : List HeapBlock) : Prop := l.Chain' AdjFree

/-- Freeness of the first block of a (sub)list, `false` for `[]`. -/
def headFreeB (l : List HeapBlock) : Bool :=
  (l.head?.map HeapBlock.free).getD false

/-- Frame-allocator cursor validity: the page offset never exceeds the head
descriptor's page count (true of the fresh cursor and preserved by
`allocate_frame`). -/
def faValid (s : FrameAllocSt) : Prop :=
  ∀ d rest, s.descs = d :: rest → d.typ = EFI_CONVENTIONAL_MEMORY →
    s.pageOffset ≤ d.numberOfPages

/-- Conventional pages the cursor can still hand out. -/
def faRemaining : List MemDesc → Nat → Nat
  | [], _ => 0
  | d :: rest, off =>
    (if d.typ = EFI_CONVENTIONAL_MEMORY then
      d.numberOfPages - off
    else 0) + conventionalPages rest

/-- Every conventional descriptor starts at a nonzero physical address. -/
def nonzeroStarts (m : List MemDesc) : Prop :=
  ∀ d ∈ m, d.typ = EFI_CONVENTIONAL_MEMORY → d.physicalStart ≠ 0

instance (m : List MemDesc) : Decidable (nonzeroStarts m) := by
  unfold nonzeroStarts
  infer_instance

/-- Task `i` exists and its status is Terminated. -/
def terminatedAt (s : Scheduler) (i : Nat) : Prop :=
  (s.tasks.get? i).map KTask.status = some TaskStatus.Terminated

instance (s : Scheduler) (i : Nat) : Decidable (terminatedAt s i) := by
  unfold terminatedAt
  infer_instance

/-- Concrete allocator state for the realloc scenario: heap of 4096 bytes at
address 0, after `alloc(16, 8)` returned pointer 40 (block header at 0,
offset-header word at 32). -/
def reallocDemoSt : AllocSt :=
  (kalloc
    { start := 0, blocks := heapInit 4096, headers := fun _ => 0,
      mem := fun a => a * 7 % 256 }
    16 8).1

/-- Concrete scheduler scenario: after `init`, one user task added, then the
bootstrap task terminates (and the scheduler switches to task 1). -/
def schedDemo : Scheduler :=
  ((Scheduler.init 0).addNewUserTask 4096 8192 16384 12288 16640).terminateTask

/-! # Theorems -/

/-! ## Bit-stamping helper -/

/-- Clearing bit 0 and or-ing in a cycle flag leaves exactly that flag in
bit 0. -/
theorem land_one_stamp_eq (x : Nat) (b : Bool) :
    ((x &&& 0xFFFFFFFE) ||| (if b then 1 else 0)) &&& 1 = (if b then 1 else 0) := by
  apply Nat.eq_of_testBit_eq
  intro i
  cases i with
  | zero => cases b <;>
      simp [Nat.testBit_land, Nat.testBit_lor, Nat.testBit_zero]
  | succ n => cases b <;>
      simp [Nat.testBit_land, Nat.testBit_lor, Nat.testBit_succ]

/-- The cycle bit of a freshly stamped control word is the producer cycle. -/
theorem cycleBit_stamp (x : Nat) (b : Bool) :
    decide (((x &&& 0xFFFFFFFE) ||| (if b then 1 else 0)) &&& 1 ≠ 0) = b := by
  rw [land_one_stamp_eq]
  cases b <;> rfl

/-- `Trb.cycleBit` unfolded to its `decide` form. -/
theorem Trb.cycleBit_def (t : Trb) : t.cycleBit = decide (t.control &&& 1 ≠ 0) := rfl

/-! ## Ring step lemmas -/

theorem enqueue_size (r : CommandRing) (t : Trb) : (r.enqueue t).size = r.size := by
  simp only [CommandRing.enqueue]
  split <;> rfl

theorem enqueue_enqueueIndex (r : CommandRing) (t : Trb) :
    (r.enqueue t).enqueueIndex =
      if r.enqueueIndex + 1 ≥ r.size then 0 else r.enqueueIndex + 1 := by
  simp only [CommandRing.enqueue]
  split <;> simp_all

theorem enqueue_cycleBit (r : CommandRing) (t : Trb) :
    (r.enqueue t).cycleBit =
      if r.enqueueIndex + 1 ≥ r.size then !r.cycleBit else r.cycleBit := by
  simp only [CommandRing.enqueue]
  split <;> simp_all

theorem enqueueAll_index_cycle (l : List Trb) (r : CommandRing)
    (hsz : 1 ≤ r.size) (hidx : r.enqueueIndex < r.size) :
    (r.enqueueAll l).enqueueIndex = (r.enqueueIndex + l.length) % r.size ∧
    (r.enqueueAll l).cycleBit =
      (r.cycleBit ^^ decide ((r.enqueueIndex + l.length) / r.size % 2 = 1)) := by
  induction l generalizing r with
  | nil =>
    simp [CommandRing.enqueueAll, Nat.mod_eq_of_lt hidx, Nat.div_eq_of_lt hidx]
  | cons t l ih =>
    have hstep : r.enqueueAll (t :: l) = (r.enqueue t).enqueueAll l := rfl
    have hsz' : (r.enqueue t).size = r.size := enqueue_size r t
    by_cases hw : r.enqueueIndex + 1 ≥ r.size
    · have h1 : (r.enqueue t).enqueueIndex = 0 := by
        rw [enqueue_enqueueIndex]; simp [hw]
      have h2 : (r.enqueue t).cycleBit = !r.cycleBit := by
        rw [enqueue_cycleBit]; simp [hw]
      have ih' := ih (r.enqueue t) (by omega) (by omega)
      obtain ⟨ia, ca⟩ := ih'
      rw [hsz', h1] at ia
      rw [hsz', h1, h2] at ca
      rw [hstep, ia, ca]
      have hlen : r.enqueueIndex + (t :: l).length = l.length + r.size := by
        simp only [List.length_cons]; omega
      constructor
      · rw [Nat.zero_add, hlen, Nat.add_mod_right]
      · rw [Nat.zero_add, hlen, Nat.add_div_right _ (by omega : 0 < r.size)]
        have hd : decide ((l.length / r.size + 1) % 2 = 1)
            = !decide (l.length / r.size % 2 = 1) := by
          rcases Nat.mod_two_eq_zero_or_one (l.length / r.size) with h | h <;>
            simp [Nat.add_mod, h]
        rw [hd]
        generalize decide (l.length / r.size % 2 = 1) = b
        cases r.cycleBit <;> cases b <;> rfl
    · have h1 : (r.enqueue t).enqueueIndex = r.enqueueIndex + 1 := by
        rw [enqueue_enqueueIndex]; simp [hw]
      have h2 : (r.enqueue t).cycleBit = r.cycleBit := by
        rw [enqueue_cycleBit]; simp [hw]
      have ih' := ih (r.enqueue t) (by omega) (by omega)
      obtain ⟨ia, ca⟩ := ih'
      rw [hsz', h1] at ia
      rw [hsz', h1, h2] at ca
      rw [hstep, ia, ca]
      have hlen : r.enqueueIndex + 1 + l.length = r.enqueueIndex + (t :: l).length := by
        simp only [List.length_cons]; omega
      rw [hlen]
      exact ⟨rfl, rfl⟩

/-- C2: for every producer ring with `N-1` usable slots, after `k` enqueue
operations with no consumer progress the enqueue index equals `k mod (N-1)`
and the cycle bit equals the initial cycle XOR `(k / (N-1)) mod 2`. -/
theorem ring_enqueue_index_cycle (r : CommandRing) (l : List Trb)
    (hsz : 1 ≤ r.size) (hidx : r.enqueueIndex = 0) :
    (r.enqueueAll l).enqueueIndex = l.length % r.size ∧
    (r.enqueueAll l).cycleBit =
      (r.cycleBit ^^ decide (l.length / r.size % 2 = 1)) := by
  have h := enqueueAll_index_cycle l r hsz (by omega)
  rw [hidx, Nat.zero_add] at h
  exact h

/-- C2 witness: a ring of 4 slots (3 usable + Link) built by
`CommandRing::new`; after 4 enqueues the index is 1 and the cycle bit has
flipped once (initial `true`, now `false`). -/
theorem ring_enqueue_index_cycle_witness :
    ((CommandRing.new 0 64).enqueueAll (List.replicate 4 Trb.default)).enqueueIndex = 1 ∧
    ((CommandRing.new 0 64).enqueueAll (List.replicate 4 Trb.default)).cycleBit = false := by
  have h := ring_enqueue_index_cycle (CommandRing.new 0 64)
    (List.replicate 4 Trb.default) (by decide) (by decide)
  exact ⟨h.1.trans (by decide), h.2.trans (by decide)⟩

/-! ## Link TRB cycle-bit invariant (C5) -/

theorem ringInv_new (base sizeBytes : Nat) (h : 2 ≤ sizeBytes / 16) :
    RingInv (CommandRing.new base sizeBytes) := by
  refine ⟨by simp [CommandRing.new]; omega, ?_, ?_⟩
  · simp [CommandRing.new]
    omega
  · simp only [CommandRing.new, CommandRing.linkCycleBit]
    rw [List.get?_set_eq_of_lt _ (by simp; omega)]
    simp [Trb.cycleBit, TRB_LINK]

theorem ringInv_enqueue (r : CommandRing) (t : Trb) (h : RingInv r) :
    RingInv (r.enqueue t) := by
  obtain ⟨hidx, hlen, hlink⟩ := h
  by_cases hw : r.enqueueIndex + 1 ≥ r.size
  · have hsz : r.size ≥ 1 := by omega
    refine ⟨?_, ?_, ?_⟩
    · rw [enqueue_enqueueIndex, enqueue_size]; simp [hw]; omega
    · simp only [CommandRing.enqueue]
      rw [if_pos hw]
      simp [hlen]
    · simp only [CommandRing.enqueue]
      rw [if_pos hw]
      simp only [CommandRing.linkCycleBit]
      rw [List.get?_set_eq_of_lt _ (by simp [hlen])]
      simp only [Option.getD_some]
      rw [Trb.cycleBit_def]
      show decide ((_ &&& 0xFFFFFFFE ||| _) &&& 1 ≠ 0) = _
      rw [cycleBit_stamp]
      cases r.cycleBit <;> rfl
  · have hne : r.enqueueIndex ≠ r.size := by omega
    refine ⟨?_, ?_, ?_⟩
    · rw [enqueue_enqueueIndex, enqueue_size]; simp [hw]; omega
    · simp only [CommandRing.enqueue]
      rw [if_neg hw]
      simp [hlen]
    · simp only [CommandRing.enqueue]
      rw [if_neg hw]
      simp only [CommandRing.linkCycleBit]
      rw [List.get?_set_ne _ _ hne]
      exact hlink

theorem ringInv_enqueueAll (r : CommandRing) (l : List Trb) (h : RingInv r) :
    RingInv (r.enqueueAll l) := by
  induction l generalizing r with
  | nil => exact h
  | cons t l ih => exact ih (r.enqueue t) (ringInv_enqueue r t h)

/-- C5 counterexample: on the 4-slot command ring of the scenario, after one
production the Link TRB's cycle bit (still 0, untouched before the first
wrap) differs from the ring's current cycle bit (1). -/
theorem link_cycle_counterexample :
    ¬ (((CommandRing.new 0 64).enqueue Trb.default).linkCycleBit
        = ((CommandRing.new 0 64).enqueue Trb.default).cycleBit) := by
  decide

/-- C5 (amended): for every ring built by `CommandRing::new` (at least two
slots) and every number of productions, the Link TRB's cycle bit equals the
COMPLEMENT of the ring's current cycle bit - the cycle under which the
producer last wrote, i.e. the pre-flip cycle of the most recent wrap (and the
initial 0 before any wrap). -/
theorem link_cycle_complement (base sizeBytes : Nat) (l : List Trb)
    (h : 2 ≤ sizeBytes / 16) :
    ((CommandRing.new base sizeBytes).enqueueAll l).linkCycleBit
      = !((CommandRing.new base sizeBytes).enqueueAll l).cycleBit :=
  (ringInv_enqueueAll (CommandRing.new base sizeBytes) l
    (ringInv_new base sizeBytes h)).2.2

/-- C5 witness: the amended claim evaluated on the 4-slot ring after one
production. -/
theorem link_cycle_complement_witness :
    ((CommandRing.new 0 64).enqueueAll [Trb.default]).linkCycleBit
      = !((CommandRing.new 0 64).enqueueAll [Trb.default]).cycleBit :=
  link_cycle_complement 0 64 [Trb.default] (by decide)

/-- C1: the syscall dispatcher has no arm for id 13 (`realloc`); every
invocation with id 13 falls into the unknown-syscall arm and returns
`usize::MAX`, never performing a reallocation (its own user-mode caller
`user_realloc` issues syscall 13 expecting a pointer back). -/
theorem syscall_id13_unknown (env : SyscallEnv) (ptr size align a4 a5 a6 : Nat) :
    syscallDispatcherImpl env 13 ptr size align a4 a5 a6 = USIZE_MAX := rfl


/-- C4 counterexample: a Transfer Event with completion code 13 (Short
Packet) whose `param` lies in the interrupt-in ring pushes nothing and leaves
the previous report unchanged, although the press-edge comparison (which the
claim says runs for Short Packet too) would have emitted `'a'`. -/
theorem shortPacket_not_processed :
    processTransferEventKbd true 13 [0, 0, 0, 0, 0, 0, 0, 0]
        [0, 0, 4, 0, 0, 0, 0, 0] = ([], [0, 0, 0, 0, 0, 0, 0, 0]) ∧
    pressEdge [0, 0, 0, 0, 0, 0, 0, 0] [0, 0, 4, 0, 0, 0, 0, 0] = [0x61] := by
  constructor <;> rfl

/-- C4 (amended): the press-edge processing runs exactly for completion code
1 (Success); a Short Packet (code 13) Transfer Event inside the interrupt-in
ring does not compare the report - nothing is pushed and the previous report
is left unchanged. -/
theorem transfer_event_success_only (prev report : List Nat) :
    processTransferEventKbd true 1 prev report = (pressEdge prev report, report) ∧
    processTransferEventKbd true 13 prev report = ([], prev) := by
  constructor <;> rfl

/-- C10: `nvme_read` and `nvme_write` return 0 whenever they return,
regardless of the arguments and of the completion entries' status fields
(the wait loop looks only at the phase tag and command id; the status code is
never propagated).  `none` is the case where the wait loop spins beyond the
modelled fuel. -/
theorem nvme_read_write_return_zero (nsid lba buffer count : Nat)
    (q : NvmeQueue) (fuel : Nat) :
    (nvmeRead nsid lba buffer count q fuel = none ∨
      ∃ q', nvmeRead nsid lba buffer count q fuel = some (0, q')) ∧
    (nvmeWrite nsid lba buffer count q fuel = none ∨
      ∃ q', nvmeWrite nsid lba buffer count q fuel = some (0, q')) := by
  constructor
  · rcases h : nvmeWaitForCompletion 100 fuel (nvmeSubmitCommand q
        { opcode := 0x02, flags := 0, commandId := 100, nsid := nsid,
          prp1 := buffer, prp2 := 0, cdw10 := lba % 2 ^ 32,
          cdw11 := lba / 2 ^ 32, cdw12 := u32Sub1 count &&& 0xFFFF })
      with _ | q'
    · left; simp only [nvmeRead]; rw [h]
    · right; exact ⟨q', by simp only [nvmeRead]; rw [h]⟩
  · rcases h : nvmeWaitForCompletion 101 fuel (nvmeSubmitCommand q
        { opcode := 0x01, flags := 0, commandId := 101, nsid := nsid,
          prp1 := buffer, prp2 := 0, cdw10 := lba % 2 ^ 32,
          cdw11 := lba / 2 ^ 32, cdw12 := u32Sub1 count &&& 0xFFFF })
      with _ | q'
    · left; simp only [nvmeWrite]; rw [h]
    · right; exact ⟨q', by simp only [nvmeWrite]; rw [h]⟩

/-! ## Keyboard press-edge detection (C3) -/

set_option maxRecDepth 4096 in
/-- `HID_ASCII_TABLE` is injective on its support. -/
theorem hidAsciiTable_inj : ∀ a, a < 128 → ∀ b, b < 128 →
    hidAsciiTable a ≠ 0 → hidAsciiTable a = hidAsciiTable b → a = b := by
  decide

theorem keyInPrev_iff (l : List Nat) (k : Nat) : keyInPrev l k = true ↔ k ∈ l := by
  induction l with
  | nil => simp [keyInPrev]
  | cons p rest ih =>
    by_cases h : p = k
    · simp [keyInPrev, h]
    · simp only [keyInPrev, if_neg h, ih, List.mem_cons]
      constructor
      · exact Or.inr
      · rintro (rfl | hm)
        · exact absurd rfl h
        · exact hm

theorem processNewKeys_eq_filterMap (p : List Nat) (keys : List Nat) :
    processNewKeys p keys = keys.filterMap (pressKeyFilter p) := by
  induction keys with
  | nil => rfl
  | cons key rest ih =>
    by_cases h0 : key = 0
    · simp [processNewKeys, pressKeyFilter, h0, ih]
    · by_cases h1 : keyInPrev p key = true
      · simp [processNewKeys, pressKeyFilter, h0, h1, ih]
      · have h1' : keyInPrev p key = false := by
          cases h : keyInPrev p key
          · rfl
          · exact absurd h h1
        by_cases h2 : key < 128
        · by_cases h3 : hidAsciiTable key = 0
          · simp [processNewKeys, pressKeyFilter, h0, h1', h2, h3, ih]
          · simp [processNewKeys, pressKeyFilter, h0, h1', h2, h3, ih]
        · simp [processNewKeys, pressKeyFilter, h0, h1', h2, ih]

theorem pressKeyFilter_eq_some (p : List Nat) (a x : Nat) :
    pressKeyFilter p a = some x ↔
      (a ≠ 0 ∧ a ∉ p ∧ translateKey a ≠ 0 ∧ x = translateKey a) := by
  unfold pressKeyFilter
  split
  · rename_i h
    obtain ⟨h0, h1, h2, h3⟩ := h
    have hmem : a ∉ p := by
      intro hm
      rw [(keyInPrev_iff p a).mpr hm] at h1
      cases h1
    simp [h0, hmem, translateKey, h2, h3, eq_comm]
  · rename_i h
    constructor
    · intro hx; cases hx
    · rintro ⟨h0, hm, ht, hx⟩
      exfalso
      apply h
      have h2 : a < 128 := by
        by_contra hlt
        simp [translateKey, hlt] at ht
      refine ⟨h0, ?_, h2, ?_⟩
      · cases hk : keyInPrev p a
        · rfl
        · exact absurd ((keyInPrev_iff p a).mp hk) hm
      · simpa [translateKey, h2] using ht

theorem pressEdge_mem (prev report : List Nat) (x : Nat) :
    x ∈ pressEdge prev report ↔
      ∃ k, k ∈ report.drop 2 ∧ k ≠ 0 ∧ k ∉ prev.drop 2 ∧
        translateKey k ≠ 0 ∧ x = translateKey k := by
  rw [pressEdge, processNewKeys_eq_filterMap, List.mem_filterMap]
  constructor
  · rintro ⟨a, ha, hf⟩
    obtain ⟨h0, hm, ht, hx⟩ := (pressKeyFilter_eq_some _ a x).mp hf
    exact ⟨a, ha, h0, hm, ht, hx⟩
  · rintro ⟨k, hk, h0, hm, ht, hx⟩
    exact ⟨k, hk, (pressKeyFilter_eq_some _ k x).mpr ⟨h0, hm, ht, hx⟩⟩

theorem filterMap_pressKeyFilter_filter (p : List Nat) (keys : List Nat) :
    keys.filterMap (pressKeyFilter p) =
      (keys.filter (fun k => k ≠ 0)).filterMap (pressKeyFilter p) := by
  induction keys with
  | nil => rfl
  | cons key rest ih =>
    by_cases h0 : key = 0
    · have hnone : pressKeyFilter p key = none := by simp [pressKeyFilter, h0]
      subst h0
      simp only [List.filterMap_cons, hnone, List.filter_cons]
      simpa using ih
    · simp [h0, List.filterMap_cons, ih]

theorem pressEdge_nodup (prev report : List Nat)
    (h : ((report.drop 2).filter (fun k => k ≠ 0)).Nodup) :
    (pressEdge prev report).Nodup := by
  rw [pressEdge, processNewKeys_eq_filterMap, filterMap_pressKeyFilter_filter]
  refine List.Nodup.filterMap ?_ h
  intro a a' b hb hb'
  rw [Option.mem_def] at hb hb'
  obtain ⟨h0, _, ht, hx⟩ := (pressKeyFilter_eq_some _ a b).mp hb
  obtain ⟨h0', _, ht', hx'⟩ := (pressKeyFilter_eq_some _ a' b).mp hb'
  have ha : a < 128 := by
    by_contra hlt
    simp [translateKey, hlt] at ht
  have ha' : a' < 128 := by
    by_contra hlt
    simp [translateKey, hlt] at ht'
  refine hidAsciiTable_inj a ha a' ha' ?_ ?_
  · simpa [translateKey, ha] using ht
  · have : translateKey a = translateKey a' := hx ▸ hx'
    simpa [translateKey, ha, ha'] using this

/-- C3 counterexample: with previous report all zero and current report
holding keycode 4 twice, the code pushes `'a'` twice - the claimed "each
element once" fails when the current report repeats a nonzero keycode. -/
theorem pressEdge_duplicate_key_counterexample :
    pressEdge [0, 0, 0, 0, 0, 0, 0, 0] [0, 0, 4, 4, 0, 0, 0, 0]
      = [0x61, 0x61] ∧
    ¬ (pressEdge [0, 0, 0, 0, 0, 0, 0, 0] [0, 0, 4, 4, 0, 0, 0, 0]).Nodup := by
  constructor
  · rfl
  · decide

/-- C3 (amended): a Success keyboard transfer event pushes exactly the set
`{translate(k) | k ∈ R'[2..8], k ≠ 0, k ∉ R[2..8], translate(k) ≠ 0}` (one
push per fresh occurrence, so a key held across two reports is never
re-emitted), and each element is pushed exactly once provided the current
report does not repeat a nonzero keycode. -/
theorem pressEdge_set_spec (prev report : List Nat) :
    (∀ x, x ∈ pressEdge prev report ↔
      ∃ k, k ∈ report.drop 2 ∧ k ≠ 0 ∧ k ∉ prev.drop 2 ∧
        translateKey k ≠ 0 ∧ x = translateKey k) ∧
    (((report.drop 2).filter (fun k => k ≠ 0)).Nodup →
      (pressEdge prev report).Nodup) :=
  ⟨pressEdge_mem prev report, pressEdge_nodup prev report⟩

/-- C3 witness: the spec's scenario 6 - previous report holds `'a'` (0x04),
current adds `'b'` (0x05): exactly `'b'` is emitted, without duplicates. -/
theorem pressEdge_set_spec_witness :
    (pressEdge [0, 0, 4, 0, 0, 0, 0, 0] [0, 0, 4, 5, 0, 0, 0, 0]).Nodup ∧
    0x62 ∈ pressEdge [0, 0, 4, 0, 0, 0, 0, 0] [0, 0, 4, 5, 0, 0, 0, 0] :=
  ⟨(pressEdge_set_spec [0, 0, 4, 0, 0, 0, 0, 0] [0, 0, 4, 5, 0, 0, 0, 0]).2
      (by decide),
    ((pressEdge_set_spec [0, 0, 4, 0, 0, 0, 0, 0] [0, 0, 4, 5, 0, 0, 0, 0]).1
        0x62).mpr
      ⟨5, by decide, by decide, by decide, by decide, by decide⟩⟩

/-! ## Scheduler: Terminated is absorbing (C9) -/

theorem findReadyGo_ready (tasks : List KTask) (fuel idx j : Nat)
    (h : findReadyGo tasks fuel idx = some j) :
    (tasks.get? j).map KTask.status = some TaskStatus.Ready := by
  induction fuel generalizing idx with
  | zero => cases h
  | succ n ih =>
    unfold findReadyGo at h
    split at h
    · rename_i hc
      cases h
      exact hc
    · exact ih _ h

theorem switchTask_get?_of_terminated (s : Scheduler) (i : Nat)
    (hterm : (s.tasks.get? i).map KTask.status = some TaskStatus.Terminated) :
    s.switchTask.tasks.get? i = s.tasks.get? i := by
  unfold Scheduler.switchTask
  by_cases he : s.tasks.isEmpty = true
  · rw [if_pos he]
  · rw [if_neg he]
    cases hfind : findReadyGo s.tasks s.tasks.length
        ((s.currentTaskIndex + 1) % s.tasks.length) with
    | none => rfl
    | some nextIndex =>
      dsimp only
      by_cases hni : nextIndex = s.currentTaskIndex
      · rw [if_pos hni]
      · rw [if_neg hni]
        have hready := findReadyGo_ready s.tasks _ _ nextIndex hfind
        have hinext : nextIndex ≠ i := by
          intro he2
          rw [he2, hterm] at hready
          simp at hready
        cases hcur : s.tasks.get? s.currentTaskIndex with
        | none =>
          simp only [hcur]
          cases hnext : s.tasks.get? nextIndex with
          | none => rfl
          | some t =>
            simp [hnext, List.getElem?_set_ne hinext]
        | some t =>
          simp only [hcur]
          by_cases hrun : t.status = TaskStatus.Running
          · have hicur : s.currentTaskIndex ≠ i := by
              intro he3
              rw [← he3, hcur] at hterm
              simp only [Option.map_some'] at hterm
              have ht2 := Option.some.inj hterm
              rw [hrun] at ht2
              simp at ht2
            rw [if_pos hrun]
            cases hnext1 : (s.tasks.set s.currentTaskIndex
                { t with status := TaskStatus.Ready }).get? nextIndex with
            | none =>
              simp [List.getElem?_set_ne hicur]
            | some t2 =>
              simp [List.getElem?_set_ne hinext, List.getElem?_set_ne hicur]
          · rw [if_neg hrun]
            cases hnext : s.tasks.get? nextIndex with
            | none => rfl
            | some t2 =>
              simp [hnext, List.getElem?_set_ne hinext]

theorem terminatedAt_apply (s : Scheduler) (op : SchedOp) (i : Nat)
    (h : terminatedAt s i) : terminatedAt (SchedOp.apply s op) i := by
  cases op with
  | addUser e u sz k g =>
    unfold terminatedAt at h ⊢
    obtain ⟨t, ht, hst⟩ := Option.map_eq_some'.mp h
    have hlt : i < s.tasks.length := by
      by_contra hge
      rw [List.get?_eq_none.mpr (Nat.le_of_not_lt hge)] at ht
      cases ht
    show ((s.tasks ++ _).get? i).map KTask.status = _
    rw [List.get?_append hlt, ht]
    simp [hst]
  | switch =>
    unfold terminatedAt at h ⊢
    show (s.switchTask.tasks.get? i).map KTask.status = _
    rw [switchTask_get?_of_terminated s i h]
    exact h
  | terminate =>
    unfold terminatedAt at h ⊢
    show ((Scheduler.terminateTask s).tasks.get? i).map KTask.status = _
    unfold Scheduler.terminateTask
    cases hcur : s.tasks.get? s.currentTaskIndex with
    | none =>
      dsimp only
      rw [switchTask_get?_of_terminated _ i h]
      exact h
    | some t =>
      dsimp only
      have hset : ((s.tasks.set s.currentTaskIndex
          { t with status := TaskStatus.Terminated }).get? i).map KTask.status
          = some TaskStatus.Terminated := by
        by_cases hic : s.currentTaskIndex = i
        · subst hic
          have hlt : s.currentTaskIndex < s.tasks.length := by
            by_contra hge
            rw [List.get?_eq_none.mpr (Nat.le_of_not_lt hge)] at hcur
            cases hcur
          rw [List.get?_set_eq_of_lt _ (by simpa using hlt)]
          rfl
        · rw [List.get?_set_ne _ _ hic]
          exact h
      rw [switchTask_get?_of_terminated _ i hset]
      exact hset

/-- C9: once a task's status is Terminated it never becomes Ready or Running
again - Terminated is absorbing under any sequence of scheduler operations
(adding user tasks, switching, terminating). -/
theorem terminated_absorbing (ops : List SchedOp) (s : Scheduler) (i : Nat)
    (h : terminatedAt s i) : terminatedAt (s.run ops) i := by
  induction ops generalizing s with
  | nil => exact h
  | cons op ops ih => exact ih (SchedOp.apply s op) (terminatedAt_apply s op i h)

/-- C9 witness: in the concrete scenario (init, add user task, terminate
task 0), task 0 is Terminated and stays Terminated across two further
switches. -/
theorem terminated_absorbing_witness :
    terminatedAt schedDemo 0 ∧
    terminatedAt (schedDemo.run [SchedOp.switch, SchedOp.switch]) 0 :=
  ⟨by decide, terminated_absorbing [SchedOp.switch, SchedOp.switch] schedDemo 0
    (by decide)⟩

/-! ## Frame allocator (C8) -/

theorem faRemaining_zero_off (m : List MemDesc) :
    faRemaining m 0 = conventionalPages m := by
  cases m with
  | nil => rfl
  | cons d rest =>
    simp only [faRemaining, conventionalPages, List.foldr_cons]
    split <;> omega

theorem allocFrameGo_success (m : List MemDesc) (off : Nat)
    (hv : ∀ d rest, m = d :: rest → d.typ = EFI_CONVENTIONAL_MEMORY →
      off ≤ d.numberOfPages)
    (hz : nonzeroStarts m) (hr : 0 < faRemaining m off) :
    ∃ a s', allocateFrameGo m off = (some a, s') ∧
      (∀ d rest, s'.descs = d :: rest → d.typ = EFI_CONVENTIONAL_MEMORY →
        s'.pageOffset ≤ d.numberOfPages) ∧
      nonzeroStarts s'.descs ∧
      faRemaining s'.descs s'.pageOffset + 1 = faRemaining m off := by
  induction m generalizing off with
  | nil => simp [faRemaining] at hr
  | cons d rest ih =>
    by_cases hc : d.typ = EFI_CONVENTIONAL_MEMORY ∧ off < d.numberOfPages
    · have hps : d.physicalStart ≠ 0 := hz d (List.mem_cons_self d rest) hc.1
      have hpos : d.physicalStart + off * 4096 > 0 := by omega
      refine ⟨d.physicalStart + off * 4096, ⟨d :: rest, off + 1⟩, ?_, ?_, hz, ?_⟩
      · simp only [allocateFrameGo, if_pos hc, if_pos hpos]
      · intro d' rest' hd hconv
        cases hd
        show off + 1 ≤ d.numberOfPages
        omega
      · show faRemaining (d :: rest) (off + 1) + 1 = faRemaining (d :: rest) off
        simp only [faRemaining, if_pos hc.1]
        have := hc.2
        omega
    · have hstep : allocateFrameGo (d :: rest) off = allocateFrameGo rest 0 := by
        simp only [allocateFrameGo, if_neg hc]
      have hrem : faRemaining rest 0 = faRemaining (d :: rest) off := by
        rw [faRemaining_zero_off]
        rcases Classical.em (d.typ = EFI_CONVENTIONAL_MEMORY) with h7 | h7
        · have hnlt : ¬ off < d.numberOfPages := fun hlt => hc ⟨h7, hlt⟩
          simp only [faRemaining, if_pos h7]
          omega
        · simp only [faRemaining, if_neg h7]
          omega
      have hz' : nonzeroStarts rest := fun d' hd' => hz d' (List.mem_cons_of_mem d hd')
      obtain ⟨a, s', h1, h2, h3, h4⟩ := ih 0 (fun _ _ _ _ => Nat.zero_le _) hz' (by omega)
      exact ⟨a, s', hstep ▸ h1, h2, h3, by omega⟩

theorem allocFrameGo_none (m : List MemDesc) (off : Nat)
    (hr : faRemaining m off = 0) : (allocateFrameGo m off).1 = none := by
  induction m generalizing off with
  | nil => rfl
  | cons d rest ih =>
    by_cases hc : d.typ = EFI_CONVENTIONAL_MEMORY ∧ off < d.numberOfPages
    · exfalso
      simp only [faRemaining, if_pos hc.1] at hr
      have := hc.2
      omega
    · have hstep : allocateFrameGo (d :: rest) off = allocateFrameGo rest 0 := by
        simp only [allocateFrameGo, if_neg hc]
      rw [hstep]
      apply ih
      rw [faRemaining_zero_off]
      simp only [faRemaining] at hr
      split at hr <;> omega

theorem allocateFrames_succ (n : Nat) (s : FrameAllocSt) :
    allocateFrames (n + 1) s =
      ((allocateFrame s).1 :: (allocateFrames n (allocateFrame s).2).1,
        (allocateFrames n (allocateFrame s).2).2) := by
  rcases hA : allocateFrame s with ⟨r, s'⟩
  rcases hB : allocateFrames n s' with ⟨rs, s''⟩
  simp [allocateFrames, hA, hB]

theorem allocateFrames_exact (n : Nat) (m : List MemDesc) (off : Nat)
    (hv : ∀ d rest, m = d :: rest → d.typ = EFI_CONVENTIONAL_MEMORY →
      off ≤ d.numberOfPages)
    (hz : nonzeroStarts m) (hr : faRemaining m off = n) :
    ∃ as : List Nat,
      (allocateFrames (n + 1) ⟨m, off⟩).1 = as.map some ++ [none] ∧
      as.length = n := by
  induction n generalizing m off with
  | zero =>
    have hnone := allocFrameGo_none m off hr
    refine ⟨[], ?_, rfl⟩
    rw [allocateFrames_succ]
    have hfr : (allocateFrame ⟨m, off⟩).1 = none := hnone
    simp [allocateFrames, hfr]
  | succ n ih =>
    obtain ⟨a, s', h1, h2, h3, h4⟩ := allocFrameGo_success m off hv hz (by omega)
    have h1' : allocateFrame ⟨m, off⟩ = (some a, s') := h1
    cases s' with
    | mk descs' off' =>
      obtain ⟨as, hAs, hLen⟩ := ih descs' off' h2 h3 (by simp at h4 ⊢; omega)
      refine ⟨a :: as, ?_, by simp [hLen]⟩
      rw [allocateFrames_succ, h1']
      simp only
      rw [hAs]
      simp

/-- C8 counterexample: a memory map with a single conventional descriptor at
physical address 0 (1 page, so `P = 1`): the very first `allocate_frame`
returns none - the `frame_address > 0` guard makes the allocator skip the
entire descriptor, so the first `P` calls are not all non-null. -/
theorem frame_allocator_zero_start_counterexample :
    conventionalPages [⟨EFI_CONVENTIONAL_MEMORY, 0, 1⟩] = 1 ∧
    (allocateFrame ⟨[⟨EFI_CONVENTIONAL_MEMORY, 0, 1⟩], 0⟩).1 = none := by
  constructor <;> rfl

/-- C8 (amended): for every memory map in which no conventional descriptor
starts at physical address 0, with `P` the total conventional page count, a
fresh allocator returns a frame for each of the first `P` calls and none for
the `(P+1)`-th. -/
theorem frame_allocator_exhausts_conventional (m : List MemDesc)
    (hz : nonzeroStarts m) :
    ∃ as : List Nat,
      (allocateFrames (conventionalPages m + 1) ⟨m, 0⟩).1 = as.map some ++ [none] ∧
      as.length = conventionalPages m :=
  allocateFrames_exact (conventionalPages m) m 0
    (fun _ _ _ _ => Nat.zero_le _) hz (faRemaining_zero_off m)

/-- C8 witness: one conventional descriptor `{start = 0x1000, pages = 2}`
(`P = 2`): three calls produce two frames and then none. -/
theorem frame_allocator_exhausts_conventional_witness :
    ∃ as : List Nat,
      (allocateFrames (conventionalPages [⟨7, 4096, 2⟩] + 1)
        ⟨[⟨7, 4096, 2⟩], 0⟩).1 = as.map some ++ [none] ∧
      as.length = conventionalPages [⟨7, 4096, 2⟩] :=
  frame_allocator_exhausts_conventional [⟨7, 4096, 2⟩] (by decide)

/-! ## Heap: adjacent free blocks are always coalesced (C6) -/

theorem allocRawGo_chain (s : Nat) (l : List HeapBlock) :
    ∀ (l' : List HeapBlock) (i : Nat), List.Chain' AdjFree l →
    allocRawGo s l = some (l', i) →
    List.Chain' AdjFree l' ∧ (headFreeB l' = true → headFreeB l = true) := by
  induction l with
  | nil => intro l' i _ h2; cases h2
  | cons b rest ih =>
    intro l' i hch h2
    rw [List.chain'_cons'] at hch
    obtain ⟨hhead, htail⟩ := hch
    unfold allocRawGo at h2
    split at h2
    · rename_i htaken
      split at h2
      · cases h2
        constructor
        · rw [List.chain'_cons']
          refine ⟨?_, ?_⟩
          · intro c hc
            exact Or.inl rfl
          · rw [List.chain'_cons']
            refine ⟨?_, htail⟩
            intro c hc
            have := hhead c hc
            rcases this with h | h
            · rw [htaken.1] at h
              cases h
            · exact Or.inr h
        · intro h
          simp [headFreeB] at h
      · cases h2
        constructor
        · rw [List.chain'_cons']
          refine ⟨?_, htail⟩
          intro c hc
          exact Or.inl rfl
        · intro h
          simp [headFreeB] at h
    · rename_i hnot
      cases hrec : allocRawGo s rest with
      | none => rw [hrec] at h2; cases h2
      | some p =>
        rcases p with ⟨rest', j⟩
        rw [hrec] at h2
        cases h2
        obtain ⟨hch', hhd⟩ := ih rest' j htail hrec
        constructor
        · rw [List.chain'_cons']
          refine ⟨?_, hch'⟩
          intro c hc
          cases hbf : b.free with
          | false => exact Or.inl hbf
          | true =>
            right
            by_contra hcf
            have hcf' : c.free = true := by
              cases hcf2 : c.free
              · exact absurd hcf2 hcf
              · rfl
            have h1 : headFreeB rest' = true := by
              cases rest' with
              | nil => cases hc
              | cons c0 r0 =>
                simp at hc
                rw [← hc] at hcf'
                simp [headFreeB, hcf']
            have h2 := hhd h1
            cases rest with
            | nil => simp [headFreeB] at h2
            | cons r0 rs =>
              have := hhead r0 (by simp)
              rcases this with hb | hr
              · rw [hbf] at hb; cases hb
              · simp [headFreeB, hr] at h2
        · intro h
          exact h

theorem freeRawGo_flag (l : List HeapBlock) (n : Nat)
    (h : (freeRawGo l n).2 = true) :
    ∃ c rest2, (freeRawGo l n).1 = c :: rest2 ∧ c.free = true := by
  match l, n with
  | [], _ => cases h
  | b :: rest, 0 =>
    by_cases hbf : b.free = true
    · simp [freeRawGo, hbf] at h
    · rw [Bool.not_eq_true] at hbf
      cases rest with
      | nil => exact ⟨⟨b.size, true⟩, [], by simp [freeRawGo, hbf], rfl⟩
      | cons b2 rest2 =>
        by_cases h2f : b2.free = true
        · exact ⟨⟨b.size + b2.size + HEAP_BLOCK_SIZE, true⟩, rest2,
            by simp [freeRawGo, hbf, h2f], rfl⟩
        · rw [Bool.not_eq_true] at h2f
          exact ⟨⟨b.size, true⟩, b2 :: rest2,
            by simp [freeRawGo, hbf, h2f], rfl⟩
  | b :: rest, n + 1 =>
    exfalso
    rcases hrec : freeRawGo rest n with ⟨rest', changed⟩
    rw [freeRawGo, hrec] at h
    dsimp only at h
    split at h
    · split at h <;> cases h
    · cases h

theorem freeRawGo_zero_unchanged (l : List HeapBlock)
    (h : (freeRawGo l 0).2 = false) : (freeRawGo l 0).1 = l := by
  match l with
  | [] => rfl
  | b :: rest =>
    by_cases hbf : b.free = true
    · simp [freeRawGo, hbf]
    · rw [Bool.not_eq_true] at hbf
      exfalso
      cases rest with
      | nil => simp [freeRawGo, hbf] at h
      | cons b2 rest2 =>
        by_cases h2f : b2.free = true
        · simp [freeRawGo, hbf, h2f] at h
        · rw [Bool.not_eq_true] at h2f
          simp [freeRawGo, hbf, h2f] at h

theorem freeRawGo_headFree (l : List HeapBlock) (n : Nat) (h : 1 ≤ n) :
    headFreeB (freeRawGo l n).1 = headFreeB l := by
  match l, n with
  | [], n => rfl
  | b :: rest, m + 1 =>
    rcases hrec : freeRawGo rest m with ⟨rest', changed⟩
    rw [freeRawGo, hrec]
    dsimp only
    split
    · rename_i hcond
      obtain ⟨hm, hch, hbf⟩ := hcond
      split
      · simp [headFreeB, hbf]
      · simp [headFreeB, hbf]
    · rfl

theorem freeRawGo_chain (l : List HeapBlock) (n : Nat)
    (h : List.Chain' AdjFree l) :
    List.Chain' AdjFree (freeRawGo l n).1 := by
  induction l generalizing n with
  | nil => exact h
  | cons b rest ih =>
    rw [List.chain'_cons'] at h
    obtain ⟨hhead, htail⟩ := h
    cases n with
    | zero =>
      by_cases hbf : b.free = true
      · simp only [freeRawGo, hbf, if_true]
        exact List.chain'_cons'.mpr ⟨hhead, htail⟩
      · rw [Bool.not_eq_true] at hbf
        cases rest with
        | nil => simp [freeRawGo, hbf]
        | cons b2 rest2 =>
          rw [List.chain'_cons'] at htail
          obtain ⟨hhead2, htail2⟩ := htail
          by_cases h2f : b2.free = true
          · simp only [freeRawGo, hbf, h2f]
            refine List.chain'_cons'.mpr ⟨?_, htail2⟩
            intro c hc
            have := hhead2 c hc
            rcases this with hb | hcfree
            · rw [h2f] at hb; cases hb
            · exact Or.inr hcfree
          · rw [Bool.not_eq_true] at h2f
            simp only [freeRawGo, hbf, h2f]
            refine List.chain'_cons'.mpr ⟨?_, List.chain'_cons'.mpr ⟨hhead2, htail2⟩⟩
            intro c hc
            simp at hc
            rw [← hc]
            exact Or.inr h2f
    | succ m =>
      rcases hrec : freeRawGo rest m with ⟨rest', changed⟩
      have hch' : List.Chain' AdjFree rest' := by
        have := ih m htail
        rw [hrec] at this
        exact this
      rw [freeRawGo, hrec]
      dsimp only
      split
      · rename_i hcond
        obtain ⟨hm, hch, hbf⟩ := hcond
        have hflag := freeRawGo_flag rest m (by rw [hrec]; exact hch)
        rw [hrec] at hflag
        obtain ⟨c, rest2, hr1, hcf⟩ := hflag
        dsimp only at hr1
        split
        · cases hr1
          rw [List.chain'_cons'] at hch'
          obtain ⟨hhead', htail'⟩ := hch'
          refine List.chain'_cons'.mpr ⟨?_, htail'⟩
          intro e he
          have := hhead' e he
          rcases this with hb | hefree
          · rw [hcf] at hb; cases hb
          · exact Or.inr hefree
        · simp at hr1
      · rename_i hcond
        dsimp only
        refine List.chain'_cons'.mpr ⟨?_, hch'⟩
        intro c hc
        cases hbf : b.free with
        | false => exact Or.inl hbf
        | true =>
          right
          cases hm : m with
          | zero =>
            have hchf : changed = false := by
              cases hcg : changed
              · rfl
              · exact absurd ⟨hm, hcg, hbf⟩ hcond
            have hflag0 : (freeRawGo rest 0).2 = false := by
              rw [← hm, hrec]
              exact hchf
            have hunch := freeRawGo_zero_unchanged rest hflag0
            rw [← hm, hrec] at hunch
            dsimp only at hunch
            rw [hunch] at hc
            have := hhead c hc
            rcases this with hb | hcfree
            · rw [hbf] at hb; cases hb
            · exact hcfree
          | succ m0 =>
            have hhf := freeRawGo_headFree rest m (by omega)
            rw [hrec] at hhf
            dsimp only at hhf
            cases rest' with
            | nil => cases hc
            | cons c0 r0 =>
              simp at hc
              cases rest with
              | nil =>
                simp [freeRawGo] at hrec
              | cons r1 rs =>
                have hr1f := hhead r1 (by simp)
                rcases hr1f with hb | hr
                · rw [hbf] at hb; cases hb
                · simp [headFreeB, hr] at hhf
                  rw [← hc]
                  exact hhf

theorem heapOp_preserves_chain (blocks : List HeapBlock) (op : HeapOp)
    (h : List.Chain' AdjFree blocks) :
    List.Chain' AdjFree (HeapOp.apply blocks op) := by
  cases op with
  | alloc size =>
    simp only [HeapOp.apply, allocRaw]
    cases hrec : allocRawGo (align8 size) blocks with
    | none => exact h
    | some p =>
      rcases p with ⟨blocks', i⟩
      exact (allocRawGo_chain (align8 size) blocks blocks' i h hrec).1
  | free i => exact freeRawGo_chain blocks i h

/-- C6: starting from an initialized heap, after any sequence of `alloc_raw`
and `free_raw` operations no two address-adjacent blocks of the heap's block
list are both free (freeing coalesces with the next block, then the previous
block). -/
theorem no_two_adjacent_free (size : Nat) (ops : List HeapOp) :
    NoTwoAdjacentFree (heapRun (heapInit size) ops) := by
  unfold NoTwoAdjacentFree heapRun
  have hinit : List.Chain' AdjFree (heapInit size) := by
    simp [heapInit]
  generalize heapInit size = blocks at hinit ⊢
  induction ops generalizing blocks with
  | nil => exact hinit
  | cons op ops ih =>
    exact ih (HeapOp.apply blocks op) (heapOp_preserves_chain blocks op hinit)

/-! ## KernelAllocator realloc (C7) -/

theorem findBlockIdx_ge (l : List HeapBlock) :
    ∀ (start a k : Nat), findBlockIdx start l a = some k → start ≤ a := by
  induction l with
  | nil => intro start a k h; cases h
  | cons b rest ih =>
    intro start a k h
    rw [findBlockIdx] at h
    split at h
    · omega
    · rcases Option.map_eq_some'.mp h with ⟨k0, hk0, _⟩
      have := ih _ _ _ hk0
      omega

theorem findBlockIdx_some_zero (l : List HeapBlock) (start a : Nat)
    (h : findBlockIdx start l a = some 0) : start = a := by
  cases l with
  | nil => cases h
  | cons b rest =>
    rw [findBlockIdx] at h
    split at h
    · assumption
    · rcases Option.map_eq_some'.mp h with ⟨k0, _, hk⟩
      omega

theorem allocRawGo_preserves_block (s : Nat) (l : List HeapBlock) :
    ∀ (l' : List HeapBlock) (i start a k : Nat) (b : HeapBlock),
    allocRawGo s l = some (l', i) →
    findBlockIdx start l a = some k → l.get? k = some b → b.free = false →
    ∃ k', findBlockIdx start l' a = some k' ∧ l'.get? k' = some b := by
  induction l with
  | nil => intro l' i start a k b h _ _ _; cases h
  | cons b0 rest ih =>
    intro l' i start a k b h hfind hget hfree
    rw [findBlockIdx] at hfind
    unfold allocRawGo at h
    split at h
    · rename_i htaken
      have hne : ¬ (start = a) := by
        intro hsa
        rw [if_pos hsa] at hfind
        cases hfind
        rw [List.get?_cons_zero] at hget
        cases hget
        rw [htaken.1] at hfree
        cases hfree
      rw [if_neg hne] at hfind
      rcases Option.map_eq_some'.mp hfind with ⟨k0, hk0, hk⟩
      subst hk
      rw [List.get?_cons_succ] at hget
      have hge : start + HEAP_BLOCK_SIZE + b0.size ≤ a :=
        findBlockIdx_ge rest _ _ _ hk0
      split at h
      · rename_i hsplit
        cases h
        have hne3 : ¬ (start + HEAP_BLOCK_SIZE + s = a) := by
          simp only [HEAP_BLOCK_SIZE] at hsplit hge ⊢
          omega
        have hbase : start + HEAP_BLOCK_SIZE + s + HEAP_BLOCK_SIZE +
            (b0.size - s - HEAP_BLOCK_SIZE) = start + HEAP_BLOCK_SIZE + b0.size := by
          simp only [HEAP_BLOCK_SIZE] at hsplit ⊢
          omega
        refine ⟨k0 + 2, ?_, ?_⟩
        · simp only [findBlockIdx, if_neg hne, if_neg hne3]
          rw [hbase, hk0]
          rfl
        · rw [List.get?_cons_succ, List.get?_cons_succ]
          exact hget
      · cases h
        refine ⟨k0 + 1, ?_, ?_⟩
        · simp only [findBlockIdx, if_neg hne]
          rw [hk0]
          rfl
        · rw [List.get?_cons_succ]
          exact hget
    · cases hrec : allocRawGo s rest with
      | none => rw [hrec] at h; cases h
      | some p =>
        rcases p with ⟨rest', j⟩
        rw [hrec] at h
        cases h
        split at hfind
        · rename_i hsa
          cases hfind
          rw [List.get?_cons_zero] at hget
          refine ⟨0, ?_, ?_⟩
          · rw [findBlockIdx, if_pos hsa]
          · rw [List.get?_cons_zero]
            exact hget
        · rename_i hsa
          rcases Option.map_eq_some'.mp hfind with ⟨k0, hk0, hk⟩
          subst hk
          rw [List.get?_cons_succ] at hget
          obtain ⟨k', hf', hg'⟩ := ih rest' j _ a k0 b hrec hk0 hget hfree
          refine ⟨k' + 1, ?_, ?_⟩
          · rw [findBlockIdx, if_neg hsa, hf']
            rfl
          · rw [List.get?_cons_succ]
            exact hg'

theorem freeRaw_frees_block (l : List HeapBlock) :
    ∀ (start i a : Nat) (b : HeapBlock),
    findBlockIdx start l a = some i → l.get? i = some b → b.free = false →
    ∀ j b', findBlockIdx start (freeRawGo l i).1 a = some j →
      (freeRawGo l i).1.get? j = some b' → b'.free = true := by
  induction l with
  | nil => intro start i a b hfind _ _ j b' _ _; cases hfind
  | cons b0 rest ih =>
    intro start i a b hfind hget hfree j b' hfj hgj
    cases i with
    | zero =>
      have hsa : start = a := findBlockIdx_some_zero _ _ _ hfind
      rw [List.get?_cons_zero] at hget
      cases hget
      cases rest with
      | nil =>
        simp [freeRawGo, hfree] at hfj hgj
        rw [findBlockIdx, if_pos hsa] at hfj
        cases hfj
        rw [List.getElem?_cons_zero] at hgj
        cases hgj
        rfl
      | cons b2 rest2 =>
        by_cases h2f : b2.free = true
        · simp [freeRawGo, hfree, h2f] at hfj hgj
          rw [findBlockIdx, if_pos hsa] at hfj
          cases hfj
          rw [List.getElem?_cons_zero] at hgj
          cases hgj
          rfl
        · rw [Bool.not_eq_true] at h2f
          simp [freeRawGo, hfree, h2f] at hfj hgj
          rw [findBlockIdx, if_pos hsa] at hfj
          cases hfj
          rw [List.getElem?_cons_zero] at hgj
          cases hgj
          rfl
    | succ n =>
      have hsa : ¬ (start = a) := by
        intro hsa
        rw [findBlockIdx, if_pos hsa] at hfind
        have := Option.some.inj hfind
        omega
      rw [findBlockIdx, if_neg hsa] at hfind
      rcases Option.map_eq_some'.mp hfind with ⟨k0, hk0, hkk⟩
      have hk0n : k0 = n := by omega
      rw [hk0n] at hk0
      rw [List.get?_cons_succ] at hget
      rcases hrec : freeRawGo rest n with ⟨rest', changed⟩
      rw [freeRawGo, hrec] at hfj hgj
      dsimp only at hfj hgj
      by_cases hcond : n = 0 ∧ changed = true ∧ b0.free = true
      · obtain ⟨hn0, hch, hb0f⟩ := hcond
        have hflag := freeRawGo_flag rest n (by rw [hrec]; exact hch)
        rw [hrec] at hflag
        obtain ⟨c, rest2, hr1, hcf⟩ := hflag
        dsimp only at hr1
        subst hr1
        rw [if_pos ⟨hn0, hch, hb0f⟩] at hfj
        dsimp only at hfj
        have hsa2 : start + HEAP_BLOCK_SIZE + b0.size = a := by
          subst hn0
          exact findBlockIdx_some_zero _ _ _ hk0
        exfalso
        rw [findBlockIdx, if_neg hsa] at hfj
        rcases Option.map_eq_some'.mp hfj with ⟨j0, hj0, _⟩
        have hge := findBlockIdx_ge rest2 _ _ _ hj0
        simp only [HEAP_BLOCK_SIZE] at hge hsa2
        omega
      · rw [if_neg hcond] at hfj hgj
        dsimp only at hfj hgj
        rw [findBlockIdx, if_neg hsa] at hfj
        rcases Option.map_eq_some'.mp hfj with ⟨j0, hj0, hjj⟩
        subst hjj
        rw [List.get?_cons_succ] at hgj
        refine ih (start + HEAP_BLOCK_SIZE + b0.size) n a b hk0 hget hfree j0 b'
          ?_ ?_
        · rw [hrec]
          exact hj0
        · rw [hrec]
          exact hgj

theorem kalloc_fail (st : AllocSt) (size align : Nat)
    (h : (kalloc st size align).2 = 0) : kalloc st size align = (st, 0) := by
  cases hA : allocRaw (size + align + OFFSET_HEADER_SIZE) st.blocks with
  | none => simp [kalloc, hA]
  | some p =>
    rcases p with ⟨blocks1, iNew⟩
    exfalso
    simp only [kalloc, hA] at h
    simp only [HEAP_BLOCK_SIZE, OFFSET_HEADER_SIZE] at h
    omega

theorem kalloc_success_facts (st : AllocSt) (size align : Nat)
    (blocks1 : List HeapBlock) (iNew : Nat)
    (hA : allocRaw (size + align + OFFSET_HEADER_SIZE) st.blocks
      = some (blocks1, iNew)) :
    (kalloc st size align).1.start = st.start ∧
    (kalloc st size align).1.mem = st.mem ∧
    (kalloc st size align).1.blocks = blocks1 ∧
    blockAddr st.start blocks1 iNew + HEAP_BLOCK_SIZE + OFFSET_HEADER_SIZE
      ≤ (kalloc st size align).2 ∧
    (∀ x, x ≠ (kalloc st size align).2 - OFFSET_HEADER_SIZE →
      (kalloc st size align).1.headers x = st.headers x) ∧
    (kalloc st size align).1.headers
        ((kalloc st size align).2 - OFFSET_HEADER_SIZE)
      = blockAddr st.start blocks1 iNew := by
  refine ⟨?_, ?_, ?_, ?_, ?_, ?_⟩
  · simp only [kalloc, hA]
  · simp only [kalloc, hA]
  · simp only [kalloc, hA]
  · simp only [kalloc, hA]
    exact Nat.le_add_right _ _
  · intro x hx
    simp only [kalloc, hA] at hx ⊢
    rw [if_neg hx]
  · simp [kalloc, hA]

theorem kdealloc_mem (st : AllocSt) (x : Nat) : (kdealloc st x).mem = st.mem := by
  unfold kdealloc
  split
  · rfl
  · rcases h : findBlockIdx st.start st.blocks
        (st.headers (x - OFFSET_HEADER_SIZE)) with _ | i <;>
      simp [h]

theorem kdealloc_spec (st : AllocSt) (ptr bAddr i : Nat) (hptr : ptr ≠ 0)
    (hh : st.headers (ptr - OFFSET_HEADER_SIZE) = bAddr)
    (hf : findBlockIdx st.start st.blocks bAddr = some i) :
    kdealloc st ptr = { st with blocks := freeRaw st.blocks i } := by
  unfold kdealloc
  rw [if_neg hptr, hh]
  dsimp only
  rw [hf]

/-- C7: for a live pointer `ptr` previously handed out by `alloc` (its
offset-header word recovers a non-free block `blk` at address `bAddr` whose
payload contains `ptr`), `realloc(ptr, align, new_size)` in kernel mode:
if the fresh allocation fails it returns null and leaves the state - and so
the old block and all memory contents - untouched; if it succeeds (returning
a pointer distinct from `ptr`, as any fresh allocation from a disjoint block
is), it returns the fresh pointer, the fresh payload holds a copy of
`min(new_size, old_capacity)` bytes where
`old_capacity = bAddr + 32 + blk.size - ptr` is derived from the recovered
block's size and the payload offset, and the old block has been freed (any
block still found at `bAddr` is free). -/
theorem krealloc_spec (st : AllocSt) (ptr align newSize bAddr iOld : Nat)
    (blk : HeapBlock)
    (hptr : ptr ≠ 0)
    (hhdr : st.headers (ptr - OFFSET_HEADER_SIZE) = bAddr)
    (hfind : findBlockIdx st.start st.blocks bAddr = some iOld)
    (hget : st.blocks.get? iOld = some blk)
    (hfree : blk.free = false)
    (hlo : bAddr + HEAP_BLOCK_SIZE + OFFSET_HEADER_SIZE ≤ ptr)
    (_hhi : ptr ≤ bAddr + HEAP_BLOCK_SIZE + blk.size) :
    ((kalloc st newSize align).2 = 0 →
      krealloc st ptr align newSize = (st, 0)) ∧
    ((kalloc st newSize align).2 ≠ 0 → (kalloc st newSize align).2 ≠ ptr →
      (krealloc st ptr align newSize).2 = (kalloc st newSize align).2 ∧
      (∀ o, o < min newSize (bAddr + HEAP_BLOCK_SIZE + blk.size - ptr) →
        (krealloc st ptr align newSize).1.mem ((kalloc st newSize align).2 + o)
          = st.mem (ptr + o)) ∧
      (∀ j b',
        findBlockIdx st.start (krealloc st ptr align newSize).1.blocks bAddr
          = some j →
        (krealloc st ptr align newSize).1.blocks.get? j = some b' →
        b'.free = true)) := by
  constructor
  · intro hz
    have hfail := kalloc_fail st newSize align hz
    unfold krealloc
    rw [if_neg hptr, hfail]
    simp
  · intro hnz hne
    rcases hA : allocRaw (newSize + align + OFFSET_HEADER_SIZE) st.blocks with
      _ | ⟨blocks1, iNew⟩
    · exfalso
      apply hnz
      simp [kalloc, hA]
    · obtain ⟨Fstart, Fmem, Fblocks, Fge, Fne, Fat⟩ :=
        kalloc_success_facts st newSize align blocks1 iNew hA
      rcases hKp : kalloc st newSize align with ⟨st1, p⟩
      rw [hKp] at Fstart Fmem Fblocks Fge Fne Fat hnz hne
      dsimp only at Fstart Fmem Fblocks Fge Fne Fat hnz hne
      dsimp only
      have h32 : HEAP_BLOCK_SIZE = 32 := rfl
      have h8 : OFFSET_HEADER_SIZE = 8 := rfl
      have hp40 : 40 ≤ p := by omega
      have hptr40 : 40 ≤ ptr := by omega
      have hne8 : ¬ (ptr - OFFSET_HEADER_SIZE = p - OFFSET_HEADER_SIZE) := by
        rw [h8]
        omega
      have hH : st1.headers (ptr - OFFSET_HEADER_SIZE) = bAddr := by
        rw [Fne _ hne8, hhdr]
      obtain ⟨iOld', hfind', hget'⟩ := allocRawGo_preserves_block
        (align8 (newSize + align + OFFSET_HEADER_SIZE)) st.blocks blocks1 iNew
        st.start bAddr iOld blk hA hfind hget hfree
      have hfind1 : findBlockIdx st1.start st1.blocks bAddr = some iOld' := by
        rw [Fstart, Fblocks]
        exact hfind'
      have hsz : blockSizeAt st1 bAddr = blk.size := by
        unfold blockSizeAt
        rw [hfind1]
        dsimp only
        rw [Fblocks, hget']
        rfl
      have hp0 : p ≠ 0 := hnz
      have hunf : krealloc st ptr align newSize =
          (kdealloc
            { st1 with mem := (copyBytes st1.mem ptr p
                (if newSize < bAddr + HEAP_BLOCK_SIZE + blk.size - ptr
                  then newSize
                  else bAddr + HEAP_BLOCK_SIZE + blk.size - ptr)) } ptr, p) := by
        unfold krealloc
        rw [if_neg hptr, hKp]
        dsimp only
        rw [if_pos hp0, hH, hsz]
      refine ⟨?_, ?_, ?_⟩
      · rw [hunf]
      · intro o ho
        have ho1 : o < newSize := Nat.lt_of_lt_of_le ho (Nat.min_le_left _ _)
        have ho2 : o < bAddr + HEAP_BLOCK_SIZE + blk.size - ptr :=
          Nat.lt_of_lt_of_le ho (Nat.min_le_right _ _)
        rw [hunf]
        dsimp only
        rw [kdealloc_mem]
        show copyBytes st1.mem ptr p _ (p + o) = st.mem (ptr + o)
        unfold copyBytes
        rw [if_pos ⟨Nat.le_add_right p o, by split <;> omega⟩]
        have hpo : p + o - p = o := by omega
        rw [hpo, Fmem]
      · intro j b' hfj hgj
        rw [hunf] at hfj hgj
        dsimp only at hfj hgj
        rw [kdealloc_spec
            { start := st1.start, blocks := st1.blocks, headers := st1.headers,
              mem := (copyBytes st1.mem ptr p
                (if newSize < bAddr + HEAP_BLOCK_SIZE + blk.size - ptr
                  then newSize
                  else bAddr + HEAP_BLOCK_SIZE + blk.size - ptr)) }
            ptr bAddr iOld' hptr hH hfind1] at hfj hgj
        dsimp only at hfj hgj
        rw [Fblocks] at hfj hgj
        exact freeRaw_frees_block blocks1 st.start iOld' bAddr blk hfind' hget'
          hfree j b' hfj hgj

/-- C7 witness: on a 4096-byte heap after `alloc(16, 8)` returned pointer 40,
`realloc(40, 8, 8)` succeeds (the fresh allocation at 104 is a different
pointer), the first copied byte of the fresh payload equals the old one, and
the old block at address 0 ends up free. -/
theorem krealloc_spec_witness :
    (krealloc reallocDemoSt 40 8 8).2 = (kalloc reallocDemoSt 8 8).2 ∧
    (krealloc reallocDemoSt 40 8 8).1.mem ((kalloc reallocDemoSt 8 8).2 + 0)
      = reallocDemoSt.mem (40 + 0) ∧
    (⟨32, true⟩ : HeapBlock).free = true := by
  have h := (krealloc_spec reallocDemoSt 40 8 8 0 0 ⟨32, false⟩
    (by decide) (by decide) (by decide) (by decide) (by decide) (by decide)
    (by decide)).2 (by decide) (by decide)
  exact ⟨h.1, h.2.1 0 (by decide), h.2.2 0 ⟨32, true⟩ (by decide) (by decide)⟩
